import Mathlib

/-
Verification development for the `haussmeister` CNMF orchestration module
(`haussmeister/cnmf.py`).  The Python source is shallowly embedded below:
pure helpers become Lean functions on `List`/`ℕ`/`ℚ`, the file system is an
explicit association list, and the effectful pipeline entry point
`process_data` is modelled as a function returning a result together with an
explicit trace of the side effects it performs, in program order.
Machine floats are modelled by `ℚ`; the single place where an IEEE NaN can
arise (the `cumEn /= cumEn[-1]` normalization when the total energy is zero,
where every quotient is `0/0`) is modelled by `Option ℚ` with `none` for NaN.
-/

namespace Cnmf

/- Basic sequence helpers mirroring the numpy operations used by the source. -/

/-- Model of `np.cumsum` (running partial sums, no leading zero). -/
def cumsumAux (acc : ℚ) : List ℚ → List ℚ
  | [] => []
  | x :: t => (acc + x) :: cumsumAux (acc + x) t

/-- Model of `np.cumsum l`. -/
def cumsum (l : List ℚ) : List ℚ := cumsumAux 0 l

/-- Index/value pairs of a list, starting at index `k` (used to model
`np.argsort`). -/
def enumIdx (k : ℕ) : List ℚ → List (ℕ × ℚ)
  | [] => []
  | x :: t => (k, x) :: enumIdx (k + 1) t

/-- Insert an index/value pair into a list kept sorted by descending value. -/
def insertP (p : ℕ × ℚ) : List (ℕ × ℚ) → List (ℕ × ℚ)
  | [] => [p]
  | q :: t => if q.2 ≤ p.2 then p :: q :: t else q :: insertP p t

/-- Insertion sort of index/value pairs by descending value.  This models
`np.argsort(w)[::-1]` (numpy leaves the order of tied entries unspecified, so
any descending order is a faithful model). -/
def sortIdxDesc : List (ℕ × ℚ) → List (ℕ × ℚ)
  | [] => []
  | p :: t => insertP p (sortIdxDesc t)

/-- Model of `np.argsort(w)[::-1]`: pixel indices of `w` by descending
weight. -/
def argsortDesc (w : List ℚ) : List ℕ :=
  (sortIdxDesc (enumIdx 0 w)).map Prod.fst

/-- Model of the numpy fancy assignment `B[indx] = vals` performed on a
buffer `init`: the writes happen left to right, later writes win. -/
def scatterAssign (init : List (Option ℚ)) (indx : List ℕ)
    (vals : List (Option ℚ)) : List (Option ℚ) :=
  (indx.zip vals).foldl (fun acc p => acc.set p.1 p.2) init

/-- The same write loop over an explicit list of index/value pairs
(`scatterAssign init indx vals = foldlSet init (indx.zip vals)`); the form
the scatter lemmas below are stated in. -/
def foldlSet (init : List (Option ℚ)) (ps : List (ℕ × Option ℚ)) :
    List (Option ℚ) :=
  ps.foldl (fun acc p => acc.set p.1 p.2) init

/-- Division as performed by numpy on the normalization step: when the
denominator is zero the only numerators that occur in the source are zero,
so the quotient is the IEEE NaN, modelled by `none`. -/
def qdiv (x y : ℚ) : Option ℚ :=
  if y = 0 then none else some (x / y)

/- POSIX path-string helpers, ported from CPython `posixpath`, as used by
`get_mmap_name` (`os.path.basename`, `os.path.normpath`, `os.path.dirname`,
`os.path.join`). -/

/-- The path component `..` as a character list. -/
def dotdot : List Char := ['.', '.']

/-- Loop body of CPython `posixpath.normpath`: process the slash-separated
components, keeping the accumulated output components in reverse order
(so Python's `new_comps[-1]`/`pop()` become `headI`/`tail`). -/
def npLoop (isl : ℕ) : List (List Char) → List (List Char) → List (List Char)
  | acc, [] => acc
  | acc, c :: rest =>
    if c = [] ∨ c = ['.'] then
      npLoop isl acc rest
    else if c ≠ dotdot ∨ (isl = 0 ∧ acc = []) ∨ (acc ≠ [] ∧ acc.headI = dotdot) then
      npLoop isl (c :: acc) rest
    else
      match acc with
      | [] => npLoop isl [] rest
      | _ :: t => npLoop isl t rest

/-- Model of CPython `posixpath.normpath`. -/
def normpath (s : String) : String :=
  let l := s.data
  if l = [] then "."
  else
    let isl : ℕ :=
      if l.take 1 = ['/'] then
        (if l.take 2 = ['/', '/'] ∧ ¬ l.take 3 = ['/', '/', '/'] then 2 else 1)
      else 0
    let comps := List.splitOn '/' l
    let nc := (npLoop isl [] comps).reverse
    let joined := List.replicate isl '/' ++ List.intercalate ['/'] nc
    if joined = [] then "." else String.mk joined

/-- Model of CPython `posixpath.basename`: the suffix after the last `/`. -/
def basenameL (l : List Char) : List Char :=
  (l.reverse.takeWhile (fun c => c ≠ '/')).reverse

/-- Model of CPython `posixpath.dirname`: everything before the last `/`,
with trailing slashes stripped unless the head is all slashes. -/
def dirnameL (l : List Char) : List Char :=
  let head := (l.reverse.dropWhile (fun c => c ≠ '/')).reverse
  if head = [] then []
  else if head.all (fun c => c = '/') then head
  else (head.reverse.dropWhile (fun c => c = '/')).reverse

/-- Model of CPython `posixpath.join` on two components. -/
def joinL (a b : List Char) : List Char :=
  if b.take 1 = ['/'] then b
  else if a = [] ∨ a.getLast? = some '/' then a ++ b
  else a ++ '/' :: b

/-- Embedding of `get_mmap_name(basename, d1, d2, T, d0=1)`: strips the
underscores from the final path component (`bn.replace('_', '')`) and
appends the dimension-encoding suffix. -/
def get_mmap_name (basename : String) (d1 d2 T : ℕ) (d0 : ℕ) : String :=
  let bn := basenameL (normpath basename).data
  let trunk := dirnameL basename.data
  let new_path := joinL trunk (bn.filter (fun c => c ≠ '_'))
  String.mk new_path ++ "_d1_" ++ toString d1 ++ "_d2_" ++ toString d2 ++
    "_d3_" ++ toString d0 ++ "_order_" ++ "C" ++ "_frames_" ++ toString T ++ "_.mmap"

/- Frame selection in `tiffs_to_cnmf` (lines 72-83 of the source). -/

/-- Embedding of the `mask_full` padding: when there are more filenames than
mask entries the mask is extended with `np.ones(...)` cast to bool, i.e.
with `True` entries. -/
def mask_full (filenames : List String) (mask : List Bool) : List Bool :=
  if mask.length < filenames.length then
    mask ++ List.replicate (filenames.length - mask.length) true
  else mask

/-- Embedding of the filename selection of `tiffs_to_cnmf`: with no mask all
frames are kept, otherwise the mask is padded by `mask_full` and the frames
whose (padded) entry is `True` are dropped. -/
def selectFilenames (filenames : List String) (mask : Option (List Bool)) :
    List String :=
  match mask with
  | none => filenames
  | some m =>
    ((filenames.zip (mask_full filenames m)).filter (fun p => !p.2)).map Prod.fst

/- The mapped-matrix construction (lines 95-104 of the source).  A frame
stack is a function `t i j ↦ value` with dimensions `(T, d1, d2)`; after
`np.transpose(tiff_data, (1, 2, 0))` it has shape `(d1, d2, T)`. -/

/-- Model of `np.reshape(a, (d1*d2, T), order='F')` for `a` of shape
`(d1, d2, T)`: entry `(p, t)` is the element of `a` at the Fortran-order
unravelling of the flat index `p + d1*d2*t`. -/
def reshapeF3to2 (d1 d2 : ℕ) (a : ℕ → ℕ → ℕ → ℚ) : ℕ → ℕ → ℚ :=
  fun p t =>
    let idx := p + d1 * d2 * t
    a (idx % d1) (idx / d1 % d2) (idx / (d1 * d2))

/-- Row-major (order `'C'`) flat storage of a `(rows, T)` matrix, as written
by `np.memmap(..., shape=(d1*d2, T), order='C')`. -/
def storeC (T : ℕ) (M : ℕ → ℕ → ℚ) : ℕ → ℚ :=
  fun k => M (k / T) (k % T)

/-- The `(d1*d2, T)` matrix assigned into `big_mov`: the axis-transposed
stack reshaped in Fortran order. -/
def builtMatrix (d1 d2 : ℕ) (tiff : ℕ → ℕ → ℕ → ℚ) : ℕ → ℕ → ℚ :=
  reshapeF3to2 d1 d2 (fun i j t => tiff t i j)

/-- The byte-for-byte (here value-for-value) content of the mapped file:
the built matrix laid out flat in the file's documented `'C'` order. -/
def mappedFileContent (d1 d2 : ℕ) (frames : List (ℕ → ℕ → ℚ)) : List ℚ :=
  let T := frames.length
  let tiff : ℕ → ℕ → ℕ → ℚ := fun t i j => (frames.getD t (fun _ _ => 0)) i j
  (List.range (d1 * d2 * T)).map (storeC T (builtMatrix d1 d2 tiff))

/- File-system model for `tiffs_to_cnmf`: an association list from file
names to stored values. -/

/-- On-disk state: file name to stored float values. -/
abbrev FS := List (String × List ℚ)

/-- Creating or truncating a file (`np.memmap` with mode `'w+'`). -/
def writeFile (fs : FS) (name : String) (content : List ℚ) : FS :=
  (name, content) :: fs.filter (fun kv => decide (kv.1 ≠ name))

/-- Model of membership in `glob.glob(dirname_comp + os.path.sep +
"Yr*.mmap")`: the name lives directly in `dirname_comp`, starts with `Yr`
and ends with `.mmap` (glob's `*` does not match `/`). -/
def matchesYrMmap (dir : String) (f : String) : Bool :=
  let pre := (dir ++ "/Yr").data
  let fl := f.data
  pre.isPrefixOf fl &&
    (let rest := fl.drop pre.length
     (".mmap".data.isSuffixOf rest) && !(rest.take (rest.length - 5)).contains '/')

/-- The inputs `tiffs_to_cnmf` consumes from its `haussio_data` argument:
the comparison directory, the per-frame TIFF files with their pixel data,
whether a raw combined-stack file is present, and the frame dimensions. -/
structure HaussioData where
  dirname_comp : String
  filenames : List String
  frameOf : String → ℕ → ℕ → ℚ
  rawAvailable : Bool
  rawFrames : List (ℕ → ℕ → ℚ)
  d1 : ℕ
  d2 : ℕ

/-- The frames the builder reads: from the individual TIFF files (selected
by `selectFilenames`) when no raw file exists, from the raw stack (boolean
row indexing by the inverted mask) otherwise. -/
def stackFrames (hd : HaussioData) (mask : Option (List Bool)) :
    List (ℕ → ℕ → ℚ) :=
  if hd.rawAvailable then
    match mask with
    | some m => ((hd.rawFrames.zip m).filter (fun p => !p.2)).map Prod.fst
    | none => hd.rawFrames
  else
    (selectFilenames hd.filenames mask).map hd.frameOf

/-- The name of the mapped file the builder writes:
`get_mmap_name(dirname_comp + '/Yr', d1, d2, T)`. -/
def builtName (hd : HaussioData) (mask : Option (List Bool)) : String :=
  get_mmap_name (hd.dirname_comp ++ "/Yr") hd.d1 hd.d2 (stackFrames hd mask).length 1

/-- Embedding of `tiffs_to_cnmf(haussio_data, mask, force)` as a transformer
of the on-disk state: a no-op when a `Yr*.mmap` file already exists and
`force` is unset, otherwise it assembles the frame stack and writes the
mapped matrix file. -/
def tiffs_to_cnmf (hd : HaussioData) (mask : Option (List Bool))
    (force : Bool) (fs : FS) : FS :=
  let mmap_files := fs.filter (fun kv => matchesYrMmap hd.dirname_comp kv.1)
  if mmap_files.length = 0 ∨ force = true then
    let frames := stackFrames hd mask
    writeFile fs (builtName hd mask) (mappedFileContent hd.d1 hd.d2 frames)
  else fs

/- The contour extractor (`contour`, lines 218-245 of the source).  A
component's weight column is a `List ℚ`; the energy-rank surface holds
`Option ℚ` values, `none` standing for the NaNs produced by a zero total
energy. -/

/-- A polygon: a list of vertices, each a list of rational coordinates. -/
abbrev Poly := List (List ℚ)

/-- The fixed degenerate polygon `[[0, 0, 0], [0, 0, 0], [0, 0, 0]]`
appended when the tracer finds no contour line. -/
def sentinel : Poly := [[0, 0, 0], [0, 0, 0], [0, 0, 0]]

/-- Descending-weight pixel order of a component column,
`indx = np.argsort(A[:, i])[::-1]`. -/
def sortedIdx (w : List ℚ) : List ℕ := argsortDesc w

/-- Cumulative energy along the descending order,
`cumEn = np.cumsum(A[:, i].flatten()[indx]**2)`. -/
def cumEnergy (w : List ℚ) : List ℚ :=
  cumsum (((sortedIdx w).map (fun i => w.getD i 0)).map (fun x => x * x))

/-- The divisor of the normalization, `cumEn[-1]`. -/
def totalEnergy (w : List ℚ) : ℚ :=
  (cumEnergy w).getLast?.getD 0

/-- The normalized cumulative energy, `cumEn /= cumEn[-1]` (NaN-aware). -/
def normCumEnergy (w : List ℚ) : List (Option ℚ) :=
  (cumEnergy w).map (fun x => qdiv x (totalEnergy w))

/-- The scattered energy-rank vector,
`Bvec = np.zeros(d); Bvec[indx] = cumEn`. -/
def componentSurface (w : List ℚ) : List (Option ℚ) :=
  scatterAssign (List.replicate w.length (some 0)) (sortedIdx w) (normCumEnergy w)

/-- The neighbouring grid-node pairs of a `d1 × d2` grid (horizontal and
vertical edges), on which an iso-contour crossing can occur. -/
def edgeList (d1 d2 : ℕ) : List ((ℕ × ℕ) × (ℕ × ℕ)) :=
  ((List.range d1).flatMap fun i =>
    (List.range (d2 - 1)).map fun j => ((i, j), (i, j + 1))) ++
  ((List.range (d1 - 1)).flatMap fun i =>
    (List.range d2).map fun j => ((i, j), (i + 1, j)))

/-- Linearly interpolated crossing vertex on an edge, in the `(x, y)`
coordinate convention of `_cntr.Cntr(y, x, Bmat)`: the `x` coordinate of the
grid node `(i, j)` is `j` and its `y` coordinate is `i`. -/
def crossPoint (p1 p2 : ℕ × ℕ) (a b thr : ℚ) : List ℚ :=
  let s := (thr - a) / (b - a)
  [(1 - s) * (p1.2 : ℚ) + s * (p2.2 : ℚ),
   (1 - s) * (p1.1 : ℚ) + s * (p2.1 : ℚ)]

/-- The level-`thr` crossings of the surface `B`: edges whose two endpoint
values are both real (non-NaN) and straddle `thr`.  A NaN endpoint masks
the edge, exactly as in the external tracer. -/
def edgeCrossings (B : ℕ → ℕ → Option ℚ) (d1 d2 : ℕ) (thr : ℚ) :
    List (List ℚ) :=
  (edgeList d1 d2).filterMap fun e =>
    match B e.1.1 e.1.2, B e.2.1 e.2.2 with
    | some a, some b =>
      if (a < thr ∧ thr ≤ b) ∨ (b < thr ∧ thr ≤ a) then
        some (crossPoint e.1 e.2 a b thr)
      else none
    | _, _ => none

/-- Model of the external contour tracer `_cntr.Cntr(y, x, Bmat).trace(thr)`
(matplotlib C code, external to this repository): it returns a list of
contour lines, empty exactly when the level `thr` is nowhere crossed by two
real-valued neighbouring nodes; the line itself is modelled as the list of
interpolated edge crossings. -/
def traceModel (B : ℕ → ℕ → Option ℚ) (d1 d2 : ℕ) (thr : ℚ) : List Poly :=
  let ps := edgeCrossings B d1 d2 thr
  if ps = [] then [] else [ps]

/-- The per-component body of the loop in `contour`: build the energy-rank
surface, reshape it to `(d1, d2)` in Fortran order (`Bmat[i][j] =
Bvec[i + d1*j]`), trace, and keep the first line or fall back to the
sentinel. -/
def componentPolygon (w : List ℚ) (d1 d2 : ℕ) (thr : ℚ) : Poly :=
  let Bvec := componentSurface w
  let Bmat : ℕ → ℕ → Option ℚ := fun i j => Bvec.getD (i + d1 * j) (some 0)
  match traceModel Bmat d1 d2 thr with
  | [] => sentinel
  | c :: _ => c

/-- Embedding of `contour(A, d1, d2, thr)`.  `A` is given by its component
columns (the loop reads `A[:, i]` for `i < nr`). -/
def contour (A : List (List ℚ)) (d1 d2 : ℕ) (thr : ℚ) : List Poly :=
  A.map (fun w => componentPolygon w d1 d2 thr)

/- Embedding of `process_data` (lines 113-215 of the source) as an effect
machine: the function returns its value together with the ordered list of
side effects it performed.  The external factorization engine and the
summary-projection routine are opaque collaborators, modelled as fields of
the environment; the only engine parameter the claims inspect, the
autoregressive order handed to each fitting pass, is recorded in the
trace. -/

/-- Matrix of floats (row list of column lists; the claims only compare
these values wholesale). -/
abbrev Mat := List (List ℚ)

/-- The result arrays stored in / loaded from the `_cnmf.mat` bundle. -/
structure Bundle where
  A : Mat
  C : Mat
  YrA : Mat
  S : Mat
  bl : Mat

/-- The image array handed around by `process_data` (`read_raw().squeeze()`
on the cache-hit path, the reshaped memmap on the miss path); `d1`/`d2` are
`images.shape[1]`/`images.shape[2]`. -/
structure Images where
  T : ℕ
  d1 : ℕ
  d2 : ℕ
  data : ℕ → ℕ → ℕ → ℚ

/-- Side effects of `process_data`, in program order. -/
inductive Effect where
  | loadShape
  | buildMmap
  | setupCluster
  | loadMemmap
  | fitPass (p : ℤ)
  | evalQuality
  | saveBundle
  | loadBundle
  | readRaw
  | computeProj
  | saveProj
  | loadProj
  | stopServer
  | deleteLogs
deriving DecidableEq

/-- The error raised on a non-null mask
(`RuntimeError("mask not supported in cnmf.process_data")`). -/
inductive PError where
  | runtimeError (msg : String)
deriving DecidableEq

/-- Environment of one `process_data` call: the cache state on disk, the
stack data, and the opaque external collaborators (first fitting pass,
quality evaluation, second fitting pass as a function of its autoregressive
order, summary projection). -/
structure PEnv where
  cnmfExists : Bool
  stored : Bundle
  mmapMissing : Bool
  rawImages : Images
  mmapImages : Images
  projExists : Bool
  storedProj : Mat
  zproject : Images → Mat
  nProcesses : ℕ
  fit1 : ℕ → Bundle
  quality : List ℕ
  fit2 : ℕ → ℤ → Bundle

/-- Return value of `process_data`:
`(rois, C2, zproj, S2, images, YrA)`, the region polygons standing in for
the `ROIList`. -/
structure PResult where
  rois : List Poly
  C : Mat
  zproj : Mat
  S : Mat
  images : Images
  YrA : Mat

/-- Tail of `process_data` shared by the hit and miss branches: summary
projection (computed and saved, or reloaded), `cm.stop_server()`, log-file
cleanup, contour extraction, and the final tuple. -/
def processTail (env : PEnv) (A2 C2 YrA S2 : Mat) (images : Images)
    (roi_iceberg : ℚ) (trace : List Effect) :
    Except PError PResult × List Effect :=
  let projStep : Mat × List Effect :=
    if env.projExists then (env.storedProj, [Effect.loadProj])
    else (env.zproject images, [Effect.computeProj, Effect.saveProj])
  let trace := trace ++ projStep.2 ++ [Effect.stopServer, Effect.deleteLogs]
  let polygons := contour A2 images.d1 images.d2 roi_iceberg
  (Except.ok ⟨polygons, C2, projStep.1, S2, images, YrA⟩, trace)

/-- Embedding of `process_data(haussio_data, mask, p, nrois_init,
roi_iceberg)`.  A non-null mask raises before anything else happens; on a
cache miss the argument `p` is shadowed by the unconditional `p = 1` before
either fitting pass, the first pass being created with `p=0` and the second
with the shadowed `p`. -/
def process_data (env : PEnv) (mask : Option (List Bool)) (p : ℤ)
    (nrois_init : ℕ) (roi_iceberg : ℚ) : Except PError PResult × List Effect :=
  match mask with
  | some _ =>
    (Except.error (PError.runtimeError "mask not supported in cnmf.process_data"), [])
  | none =>
    let trace : List Effect :=
      [Effect.loadShape] ++ (if env.mmapMissing then [Effect.buildMmap] else [])
    if env.cnmfExists then
      let images := env.rawImages
      let trace := trace ++ [Effect.loadBundle, Effect.readRaw]
      processTail env env.stored.A env.stored.C env.stored.YrA env.stored.S
        images roi_iceberg trace
    else
      let p : ℤ := 1
      let K := nrois_init / env.nProcesses
      let b2 := env.fit2 K p
      let images := env.mmapImages
      let trace := trace ++
        [Effect.setupCluster, Effect.loadMemmap, Effect.fitPass 0,
         Effect.evalQuality, Effect.fitPass p, Effect.saveBundle]
      processTail env b2.A b2.C b2.YrA b2.S images roi_iceberg trace

/- Sample data reused by the witness theorems below. -/

/-- An empty result bundle. -/
def sampleBundle : Bundle := ⟨[], [], [], [], []⟩

/-- A degenerate image stack. -/
def sampleImages : Images := ⟨1, 1, 1, fun _ _ _ => 0⟩

/-- A concrete cache-hit environment. -/
def sampleEnvHit : PEnv :=
  { cnmfExists := true, stored := sampleBundle, mmapMissing := false,
    rawImages := sampleImages, mmapImages := sampleImages,
    projExists := true, storedProj := [], zproject := fun _ => [],
    nProcesses := 1, fit1 := fun _ => sampleBundle, quality := [],
    fit2 := fun _ _ => sampleBundle }

/-- A concrete cache-miss environment. -/
def sampleEnvMiss : PEnv :=
  { sampleEnvHit with cnmfExists := false }

/-- A concrete builder input for the idempotence witness. -/
def sampleHaussio : HaussioData :=
  { dirname_comp := "data", filenames := [], frameOf := fun _ _ _ => 0,
    rawAvailable := false, rawFrames := [], d1 := 1, d2 := 1 }

/-- C5: with any non-null mask, `process_data` fails at once with the
documented `RuntimeError`, and its effect trace is empty — no file is read,
written, or deleted before the failure. -/
theorem process_data_mask_rejected (env : PEnv) (m : List Bool) (p : ℤ)
    (nrois : ℕ) (thr : ℚ) :
    process_data env (some m) p nrois thr =
      (Except.error (PError.runtimeError "mask not supported in cnmf.process_data"),
        ([] : List Effect)) := rfl

/-- C3: when the cached result file exists, `process_data` returns exactly
the stored arrays — `C`, `S` and `YrA` are returned as loaded, and the
region polygons are extracted from the loaded `A` — and no cluster setup,
no fitting pass and no quality evaluation appears in the effect trace. -/
theorem process_data_cache_hit (env : PEnv) (p : ℤ) (nrois : ℕ) (thr : ℚ)
    (h : env.cnmfExists = true) :
    (∃ zp tr, process_data env none p nrois thr =
      (Except.ok
        { rois := contour env.stored.A env.rawImages.d1 env.rawImages.d2 thr,
          C := env.stored.C, zproj := zp, S := env.stored.S,
          images := env.rawImages, YrA := env.stored.YrA }, tr)) ∧
    ∀ e ∈ (process_data env none p nrois thr).2,
      e ≠ Effect.setupCluster ∧ (∀ q : ℤ, e ≠ Effect.fitPass q) ∧
        e ≠ Effect.evalQuality := by
  constructor
  · refine ⟨?_, ?_, ?_⟩
    · exact if env.projExists then env.storedProj else env.zproject env.rawImages
    · exact ([Effect.loadShape] ++ (if env.mmapMissing then [Effect.buildMmap] else [])
        ++ [Effect.loadBundle, Effect.readRaw]
        ++ (if env.projExists then [Effect.loadProj]
            else [Effect.computeProj, Effect.saveProj])
        ++ [Effect.stopServer, Effect.deleteLogs])
    · simp only [process_data, h, if_true, processTail]
      cases hp : env.projExists <;> simp [hp]
  · intro e he
    simp only [process_data, h, if_true, processTail] at he
    cases hp : env.projExists <;> cases hm : env.mmapMissing <;>
      simp [hp, hm] at he <;>
      exact ⟨by rintro rfl; simp at he, fun q => by rintro rfl; simp at he,
        by rintro rfl; simp at he⟩

/-- C3 witness: a concrete cache-hit environment satisfying the
hypothesis. -/
theorem process_data_cache_hit_witness :
    sampleEnvHit.cnmfExists = true ∧
    ((∃ zp tr, process_data sampleEnvHit none 2 400 (9/10) =
      (Except.ok
        { rois := contour sampleEnvHit.stored.A sampleEnvHit.rawImages.d1
            sampleEnvHit.rawImages.d2 (9/10),
          C := sampleEnvHit.stored.C,
          zproj := zp, S := sampleEnvHit.stored.S,
          images := sampleEnvHit.rawImages, YrA := sampleEnvHit.stored.YrA }, tr)) ∧
    ∀ e ∈ (process_data sampleEnvHit none 2 400 (9/10)).2,
      e ≠ Effect.setupCluster ∧ (∀ q : ℤ, e ≠ Effect.fitPass q) ∧
        e ≠ Effect.evalQuality) :=
  ⟨rfl, process_data_cache_hit sampleEnvHit 2 400 (9/10) rfl⟩

/-- C10: the caller-supplied autoregressive order `p` is dead: on a cache
miss any two values of `p` give the same result and the same effect trace,
the first fitting pass runs with order `0`, the second with order `1`, and
no other order is ever used. -/
theorem process_data_p_ignored (env : PEnv) (p q : ℤ) (nrois : ℕ) (thr : ℚ)
    (h : env.cnmfExists = false) :
    process_data env none p nrois thr = process_data env none q nrois thr ∧
    Effect.fitPass 0 ∈ (process_data env none p nrois thr).2 ∧
    Effect.fitPass 1 ∈ (process_data env none p nrois thr).2 ∧
    ∀ r : ℤ, Effect.fitPass r ∈ (process_data env none p nrois thr).2 →
      r = 0 ∨ r = 1 := by
  refine ⟨rfl, ?_, ?_, ?_⟩
  · simp only [process_data, h, processTail]
    cases hp : env.projExists <;> cases hm : env.mmapMissing <;> simp [hp, hm]
  · simp only [process_data, h, processTail]
    cases hp : env.projExists <;> cases hm : env.mmapMissing <;> simp [hp, hm]
  · intro r hr
    simp only [process_data, h, processTail] at hr
    cases hp : env.projExists <;> cases hm : env.mmapMissing <;>
      simp [hp, hm] at hr <;> tauto

/-- C10 witness: a concrete cache-miss environment satisfying the
hypothesis. -/
theorem process_data_p_ignored_witness :
    sampleEnvMiss.cnmfExists = false ∧
    (process_data sampleEnvMiss none 2 400 (9/10) =
        process_data sampleEnvMiss none 7 400 (9/10) ∧
      Effect.fitPass 0 ∈ (process_data sampleEnvMiss none 2 400 (9/10)).2 ∧
      Effect.fitPass 1 ∈ (process_data sampleEnvMiss none 2 400 (9/10)).2 ∧
      ∀ r : ℤ, Effect.fitPass r ∈ (process_data sampleEnvMiss none 2 400 (9/10)).2 →
        r = 0 ∨ r = 1) :=
  ⟨rfl, process_data_p_ignored sampleEnvMiss 2 7 400 (9/10) rfl⟩

/-- C6 counterexample: for the base name `a_b` the produced file name is NOT
`<base>_d1_...` — the underscore of the final path component is stripped
(`bn.replace('_', '')`), giving `ab_d1_...`. -/
theorem get_mmap_name_strips_underscores :
    get_mmap_name "a_b" 1 1 1 1 = "ab_d1_1_d2_1_d3_1_order_C_frames_1_.mmap" ∧
    get_mmap_name "a_b" 1 1 1 1 ≠ "a_b_d1_1_d2_1_d3_1_order_C_frames_1_.mmap" := by
  constructor
  · decide
  · decide

/-- Keeping only the characters other than `_` of an underscore-free list is
the identity (the effect of `bn.replace('_', '')`). -/
theorem filter_ne_underscore_eq_self (l : List Char) (h : '_' ∉ l) :
    l.filter (fun c => c ≠ '_') = l :=
  List.filter_eq_self.mpr fun a ha => by
    simp only [decide_eq_true_eq]
    rintro rfl
    exact h ha

/-- C6 (amended): for every base name whose final path component (after
normalization) contains no underscore and which path-joins back to itself,
`get_mmap_name` produces exactly
`<base>_d1_<d1>_d2_<d2>_d3_<depth>_order_C_frames_<T>_.mmap` with depth 1;
the name is a pure function of `(basename, d1, d2, 1, T)`.  In general the
underscores of the final component are removed first (see the
counterexample). -/
theorem get_mmap_name_format (b : String) (d1 d2 T : ℕ)
    (h1 : '_' ∉ basenameL (normpath b).data)
    (h2 : joinL (dirnameL b.data) (basenameL (normpath b).data) = b.data) :
    get_mmap_name b d1 d2 T 1 =
      b ++ "_d1_" ++ toString d1 ++ "_d2_" ++ toString d2 ++ "_d3_" ++
        toString 1 ++ "_order_" ++ "C" ++ "_frames_" ++ toString T ++ "_.mmap" := by
  simp only [get_mmap_name, filter_ne_underscore_eq_self _ h1, h2]

/-- C6 witness: for the concrete base name `data/Yr` both hypotheses hold
and the produced name is the documented literal string. -/
theorem get_mmap_name_format_witness :
    '_' ∉ basenameL (normpath "data/Yr").data ∧
    joinL (dirnameL "data/Yr".data) (basenameL (normpath "data/Yr").data) =
      "data/Yr".data ∧
    get_mmap_name "data/Yr" 2 3 5 1 = "data/Yr_d1_2_d2_3_d3_1_order_C_frames_5_.mmap" := by
  refine ⟨by decide, by decide, ?_⟩
  rw [get_mmap_name_format "data/Yr" 2 3 5 (by decide) (by decide)]
  decide

/-- C1 counterexample: with two frames and the one-entry mask `[False]`, the
frame beyond the mask's length is dropped (the padding is `np.ones`, i.e.
`True` = excluded), so only the first frame is kept — contradicting the
claim that every frame beyond the mask's length is included. -/
theorem selectFilenames_drops_tail :
    selectFilenames ["frame0", "frame1"] (some [false]) = ["frame0"] ∧
    "frame1" ∉ selectFilenames ["frame0", "frame1"] (some [false]) := by
  constructor
  · decide
  · decide

/-- Filtered-zip selection rewritten positionally: the kept entries are the
first components at the indices (below both lengths) whose boolean is
false. -/
theorem zip_filter_map_fst (fns : List String) (bs : List Bool) :
    ((fns.zip bs).filter (fun p => !p.2)).map Prod.fst =
      ((List.range (min fns.length bs.length)).filter
        (fun i => !bs.getD i true)).map (fun i => fns.getD i "") := by
  induction fns generalizing bs with
  | nil => simp
  | cons f ft ih =>
    cases bs with
    | nil => simp
    | cons b bt =>
      have h1 : ((fun i => !(b :: bt)[i]?.getD true) ∘ Nat.succ) =
          (fun i => !bt[i]?.getD true) := by
        funext i
        simp
      have h2 : ((fun i => (f :: ft)[i]?.getD "") ∘ Nat.succ) =
          (fun i => ft[i]?.getD "") := by
        funext i
        simp
      have key :
          List.map (fun i => (f :: ft)[i]?.getD "")
            (List.filter (fun i => !(b :: bt)[i]?.getD true)
              (List.map Nat.succ (List.range (ft.length ⊓ bt.length)))) =
          List.map (fun i => ft[i]?.getD "")
            (List.filter (fun i => !bt[i]?.getD true)
              (List.range (ft.length ⊓ bt.length))) := by
        rw [List.filter_map, h1, List.map_map, h2]
      cases b with
      | false =>
        simp only [List.length_cons, Nat.succ_min_succ, List.range_succ_eq_map,
          List.filter_cons] at *
        simp [key, ih]
      | true =>
        simp only [List.length_cons, Nat.succ_min_succ, List.range_succ_eq_map,
          List.filter_cons] at *
        simp [key, ih]

/-- Length of the padded mask when the mask is not longer than the frame
list. -/
theorem mask_full_length (fns : List String) (m : List Bool)
    (h : m.length ≤ fns.length) : (mask_full fns m).length = fns.length := by
  unfold mask_full
  split
  · simp only [List.length_append, List.length_replicate]
    omega
  · omega

/-- Entries of the padded mask: the original entry below the mask's length,
`true` (excluded) beyond it. -/
theorem mask_full_getD (fns : List String) (m : List Bool)
    (h : m.length ≤ fns.length) (i : ℕ) :
    (mask_full fns m).getD i true =
      if i < m.length then m.getD i true else true := by
  unfold mask_full
  split
  · by_cases hi : i < m.length
    · rw [List.getD_append _ _ _ _ hi, if_pos hi]
    · rw [List.getD_append_right _ _ _ _ (le_of_not_lt hi), if_neg hi,
        List.getD_eq_getElem?_getD, List.getElem?_replicate]
      split <;> rfl
  · by_cases hi : i < m.length
    · rw [if_pos hi]
    · rw [if_neg hi, List.getD_eq_getElem?_getD,
        List.getElem?_eq_none (le_of_not_lt hi)]
      rfl

/-- C1 (amended): for a mask not longer than the frame list, the kept frames
are exactly those whose index lies within the mask and whose mask entry is
false; in particular every frame beyond the mask's length is DROPPED (the
padding is `True` = excluded), not included. -/
theorem selectFilenames_padding (fns : List String) (m : List Bool)
    (h : m.length ≤ fns.length) :
    selectFilenames fns (some m) =
      ((List.range fns.length).filter
        (fun i => decide (i < m.length) && !(m.getD i true))).map
        (fun i => fns.getD i "") := by
  simp only [selectFilenames]
  rw [zip_filter_map_fst, mask_full_length fns m h, min_self]
  congr 1
  apply List.filter_congr
  intro i _
  rw [mask_full_getD fns m h i]
  by_cases hic : i < m.length
  · simp [hic]
  · simp [hic]

/-- C1 witness: a three-frame list with a two-entry mask satisfying the
hypothesis. -/
theorem selectFilenames_padding_witness :
    ([true, false] : List Bool).length ≤ (["a", "b", "c"] : List String).length ∧
    selectFilenames ["a", "b", "c"] (some [true, false]) =
      ((List.range (["a", "b", "c"] : List String).length).filter
        (fun i => decide (i < ([true, false] : List Bool).length) &&
          !(([true, false] : List Bool).getD i true))).map
        (fun i => (["a", "b", "c"] : List String).getD i "") :=
  ⟨by decide, selectFilenames_padding ["a", "b", "c"] [true, false] (by decide)⟩

/-- C2: round-trip of the mapped matrix.  For pixel `(i, j)` of a `d1 x d2`
frame and frame index `t`, the mapped file's flat entry at position
`p*T + t` (its documented row-major layout of the `(d1*d2, T)` matrix),
where `p = i + d1*j` is the column-major pixel index, is exactly the
original pixel value: reading the file back with the documented shape and
order reproduces the stack losslessly. -/
theorem mapped_roundtrip (d1 d2 : ℕ) (frames : List (ℕ → ℕ → ℚ)) (i j t : ℕ)
    (hi : i < d1) (hj : j < d2) (ht : t < frames.length) :
    (mappedFileContent d1 d2 frames).getD ((i + d1 * j) * frames.length + t) 0 =
      (frames.getD t (fun _ _ => 0)) i j := by
  have hT : 0 < frames.length := by omega
  have hp : i + d1 * j < d1 * d2 := by
    calc i + d1 * j < d1 + d1 * j := by omega
    _ = d1 * (j + 1) := by ring
    _ ≤ d1 * d2 := Nat.mul_le_mul_left d1 hj
  have hk : (i + d1 * j) * frames.length + t < d1 * d2 * frames.length := by
    calc (i + d1 * j) * frames.length + t
        < (i + d1 * j) * frames.length + frames.length := by omega
    _ = (i + d1 * j + 1) * frames.length := by ring
    _ ≤ d1 * d2 * frames.length := Nat.mul_le_mul_right _ hp
  simp only [mappedFileContent, List.getD_eq_getElem?_getD, List.getElem?_map,
    List.getElem?_range hk, Option.map_some, Option.map_some', Option.getD_some]
  simp only [storeC, builtMatrix, reshapeF3to2]
  have e1 : ((i + d1 * j) * frames.length + t) / frames.length = i + d1 * j := by
    rw [Nat.add_comm, Nat.add_mul_div_right _ _ hT, Nat.div_eq_of_lt ht]
    omega
  have e2 : ((i + d1 * j) * frames.length + t) % frames.length = t := by
    rw [Nat.add_comm, Nat.add_mul_mod_self_right, Nat.mod_eq_of_lt ht]
  rw [e1, e2]
  have e3 : i + d1 * j + d1 * d2 * t = i + d1 * (j + d2 * t) := by ring
  have e4 : (i + d1 * j + d1 * d2 * t) % d1 = i := by
    rw [e3, Nat.add_mul_mod_self_left, Nat.mod_eq_of_lt hi]
  have e5 : (i + d1 * j + d1 * d2 * t) / d1 % d2 = j := by
    rw [e3, Nat.add_mul_div_left _ _ (by omega : 0 < d1), Nat.div_eq_of_lt hi]
    simp only [Nat.zero_add]
    rw [Nat.add_mul_mod_self_left, Nat.mod_eq_of_lt hj]
  have e6 : (i + d1 * j + d1 * d2 * t) / (d1 * d2) = t := by
    rw [Nat.add_mul_div_left _ _ (Nat.mul_pos (by omega) (by omega) : 0 < d1 * d2),
      Nat.div_eq_of_lt hp]
    omega
  rw [e4, e5, e6]

/-- C2 witness: a one-pixel, one-frame stack with value `5`. -/
theorem mapped_roundtrip_witness :
    (0 : ℕ) < 1 ∧ (0 : ℕ) < 1 ∧
      (0 : ℕ) < ([fun _ _ => (5 : ℚ)] : List (ℕ → ℕ → ℚ)).length ∧
    (mappedFileContent 1 1 [fun _ _ => (5 : ℚ)]).getD
        ((0 + 1 * 0) * ([fun _ _ => (5 : ℚ)] : List (ℕ → ℕ → ℚ)).length + 0) 0 =
      (([fun _ _ => (5 : ℚ)] : List (ℕ → ℕ → ℚ)).getD 0 (fun _ _ => 0)) 0 0 :=
  ⟨by decide, by decide, by decide,
    mapped_roundtrip 1 1 [fun _ _ => (5 : ℚ)] 0 0 0 (by decide) (by decide) (by decide)⟩

/-- C7: builder idempotence.  If a `Yr*.mmap` file is already present and
`force` is unset, `tiffs_to_cnmf` leaves the disk untouched; and running the
builder twice without `force` equals running it once — the second call finds
the file written by the first and does nothing. -/
theorem tiffs_to_cnmf_idempotent (hd : HaussioData) (fs : FS)
    (h : matchesYrMmap hd.dirname_comp (builtName hd none) = true) :
    ((fs.filter (fun kv => matchesYrMmap hd.dirname_comp kv.1)).length ≠ 0 →
      tiffs_to_cnmf hd none false fs = fs) ∧
    tiffs_to_cnmf hd none false (tiffs_to_cnmf hd none false fs) =
      tiffs_to_cnmf hd none false fs := by
  have noop : ∀ gs : FS,
      (gs.filter (fun kv => matchesYrMmap hd.dirname_comp kv.1)).length ≠ 0 →
      tiffs_to_cnmf hd none false gs = gs := by
    intro gs hlen
    simp only [tiffs_to_cnmf]
    rw [if_neg]
    push_neg
    exact ⟨hlen, by simp⟩
  refine ⟨noop fs, ?_⟩
  by_cases hlen : (fs.filter (fun kv => matchesYrMmap hd.dirname_comp kv.1)).length = 0
  · have hfirst : tiffs_to_cnmf hd none false fs =
        writeFile fs (builtName hd none)
          (mappedFileContent hd.d1 hd.d2 (stackFrames hd none)) := by
      simp only [tiffs_to_cnmf]
      rw [if_pos (Or.inl hlen)]
    rw [hfirst]
    apply noop
    simp only [writeFile, List.filter_cons, h, if_pos]
    simp
  · rw [noop fs hlen]
    exact noop fs hlen

/-- C7 witness: for the concrete stack directory `data` the built name
matches the glob and both conjuncts are available on the empty disk. -/
theorem tiffs_to_cnmf_idempotent_witness :
    matchesYrMmap sampleHaussio.dirname_comp (builtName sampleHaussio none) = true ∧
    ((((([] : FS)).filter
        (fun kv => matchesYrMmap sampleHaussio.dirname_comp kv.1)).length ≠ 0 →
      tiffs_to_cnmf sampleHaussio none false [] = []) ∧
    tiffs_to_cnmf sampleHaussio none false
        (tiffs_to_cnmf sampleHaussio none false []) =
      tiffs_to_cnmf sampleHaussio none false []) :=
  ⟨by decide, tiffs_to_cnmf_idempotent sampleHaussio [] (by decide)⟩


/- Helper lemmas about the sequence models, used by the contour-extractor
theorems. -/

/-- Inserting into a descending-sorted pair list is a permutation of
consing. -/
theorem insertP_perm (p : ℕ × ℚ) (l : List (ℕ × ℚ)) :
    (insertP p l).Perm (p :: l) := by
  induction l with
  | nil => exact List.Perm.refl _
  | cons q t ih =>
    simp only [insertP]
    split
    · exact List.Perm.refl _
    · exact (List.Perm.cons q ih).trans (List.Perm.swap p q t)

/-- The descending insertion sort permutes its input. -/
theorem sortIdxDesc_perm (l : List (ℕ × ℚ)) : (sortIdxDesc l).Perm l := by
  induction l with
  | nil => exact List.Perm.refl _
  | cons p t ih =>
    exact (insertP_perm p (sortIdxDesc t)).trans (List.Perm.cons p ih)

/-- Inserting preserves descending sortedness (by second component). -/
theorem insertP_sorted (p : ℕ × ℚ) (l : List (ℕ × ℚ))
    (h : List.Sorted (fun a b : ℕ × ℚ => b.2 ≤ a.2) l) :
    List.Sorted (fun a b : ℕ × ℚ => b.2 ≤ a.2) (insertP p l) := by
  induction l with
  | nil => simp [insertP]
  | cons q t ih =>
    rw [List.sorted_cons] at h
    obtain ⟨hq, ht⟩ := h
    simp only [insertP]
    split
    · rename_i hle
      rw [List.sorted_cons]
      refine ⟨?_, by rw [List.sorted_cons]; exact ⟨hq, ht⟩⟩
      intro b hb
      rcases List.mem_cons.mp hb with rfl | hb
      · exact hle
      · exact le_trans (hq b hb) hle
    · rename_i hnle
      rw [List.sorted_cons]
      refine ⟨?_, ih ht⟩
      intro b hb
      have := (insertP_perm p t).mem_iff.mp hb
      rcases List.mem_cons.mp this with rfl | hb2
      · exact le_of_not_le hnle
      · exact hq b hb2

/-- The descending insertion sort is sorted by descending second
component. -/
theorem sortIdxDesc_sorted (l : List (ℕ × ℚ)) :
    List.Sorted (fun a b : ℕ × ℚ => b.2 ≤ a.2) (sortIdxDesc l) := by
  induction l with
  | nil => simp [sortIdxDesc]
  | cons p t ih => exact insertP_sorted p _ ih

/-- First components of the enumeration are the contiguous index range. -/
theorem enumIdx_map_fst (w : List ℚ) :
    ∀ k, (enumIdx k w).map Prod.fst = List.range' k w.length := by
  induction w with
  | nil => intro k; simp [enumIdx]
  | cons x t ih =>
    intro k
    simp [enumIdx, List.range'_succ, ih]

/-- Second components of the enumeration are the original list. -/
theorem enumIdx_map_snd (w : List ℚ) :
    ∀ k, (enumIdx k w).map Prod.snd = w := by
  induction w with
  | nil => intro k; simp [enumIdx]
  | cons x t ih => intro k; simp [enumIdx, ih]

/-- Each enumerated pair holds the list value at its own index. -/
theorem enumIdx_getD (w : List ℚ) :
    ∀ k, ∀ q ∈ enumIdx k w, k ≤ q.1 ∧ w.getD (q.1 - k) 0 = q.2 := by
  induction w with
  | nil => intro k q hq; simp [enumIdx] at hq
  | cons x t ih =>
    intro k q hq
    simp only [enumIdx, List.mem_cons] at hq
    rcases hq with rfl | hq
    · simp
    · obtain ⟨h1, h2⟩ := ih (k + 1) q hq
      constructor
      · omega
      · have : q.1 - k = (q.1 - (k + 1)) + 1 := by omega
        rw [this, List.getD_cons_succ]
        exact h2

/-- The descending argsort is a permutation of `range w.length`. -/
theorem sortedIdx_perm_range (w : List ℚ) :
    (sortedIdx w).Perm (List.range w.length) := by
  have h1 := (sortIdxDesc_perm (enumIdx 0 w)).map Prod.fst
  rw [enumIdx_map_fst w 0, ← List.range_eq_range'] at h1
  exact h1

/-- Length of the cumulative sum. -/
theorem length_cumsumAux (l : List ℚ) :
    ∀ acc, (cumsumAux acc l).length = l.length := by
  induction l with
  | nil => intro acc; rfl
  | cons x t ih => intro acc; simp [cumsumAux, ih]

/-- Last entry of the cumulative sum: the accumulator plus the total. -/
theorem cumsumAux_getLast? (l : List ℚ) (h : l ≠ []) :
    ∀ acc, (cumsumAux acc l).getLast? = some (acc + l.sum) := by
  induction l with
  | nil => exact absurd rfl h
  | cons x t ih =>
    intro acc
    cases t with
    | nil => simp [cumsumAux]
    | cons y yt =>
      simp only [cumsumAux]
      rw [List.getLast?_cons_cons]
      have := ih (by simp) (acc + x)
      simp only [cumsumAux] at this
      rw [this]
      congr 1
      simp only [List.sum_cons]
      ring

/-- The cumulative sum of non-negative entries is non-decreasing. -/
theorem cumsumAux_chain' (l : List ℚ) (hl : ∀ x ∈ l, 0 ≤ x) :
    ∀ acc, List.Chain' (· ≤ ·) (cumsumAux acc l) := by
  induction l with
  | nil => intro acc; simp [cumsumAux]
  | cons x t ih =>
    intro acc
    cases t with
    | nil => simp [cumsumAux]
    | cons y yt =>
      simp only [cumsumAux] at *
      rw [List.chain'_cons]
      constructor
      · have : 0 ≤ y := hl y (by simp)
        linarith
      · have := ih (fun z hz => hl z (List.mem_cons_of_mem x hz)) (acc + x)
        simpa [cumsumAux] using this

/-- Every entry of the cumulative sum of non-negative entries is at most
the accumulator plus the total. -/
theorem cumsumAux_mem_le (l : List ℚ) (hl : ∀ x ∈ l, 0 ≤ x) :
    ∀ acc, ∀ y ∈ cumsumAux acc l, y ≤ acc + l.sum := by
  induction l with
  | nil => intro acc y hy; simp [cumsumAux] at hy
  | cons x t ih =>
    intro acc y hy
    simp only [cumsumAux, List.mem_cons] at hy
    have hsum : 0 ≤ t.sum :=
      List.sum_nonneg (fun z hz => hl z (List.mem_cons_of_mem x hz))
    rcases hy with rfl | hy
    · simp only [List.sum_cons]
      linarith
    · have := ih (fun z hz => hl z (List.mem_cons_of_mem x hz)) (acc + x) y hy
      simp only [List.sum_cons]
      linarith

/-- The write loop preserves the buffer length. -/
theorem foldlSet_length (ps : List (ℕ × Option ℚ)) :
    ∀ init, (foldlSet init ps).length = init.length := by
  induction ps with
  | nil => intro init; rfl
  | cons q t ih =>
    intro init
    simp only [foldlSet, List.foldl_cons] at *
    rw [ih (init.set q.1 q.2), List.length_set]

/-- Every entry of the written buffer is an initial entry or a written
value. -/
theorem foldlSet_mem (ps : List (ℕ × Option ℚ)) :
    ∀ init, ∀ y ∈ foldlSet init ps, y ∈ init ∨ y ∈ ps.map Prod.snd := by
  induction ps with
  | nil => intro init y hy; exact Or.inl hy
  | cons q t ih =>
    intro init y hy
    simp only [foldlSet, List.foldl_cons] at hy
    rcases ih (init.set q.1 q.2) y hy with h1 | h1
    · rcases List.mem_or_eq_of_mem_set h1 with h2 | h2
      · exact Or.inl h2
      · exact Or.inr (by simp [h2])
    · exact Or.inr (by simp only [List.map_cons]; exact List.mem_cons_of_mem _ h1)

/-- A position never written keeps its initial value. -/
theorem foldlSet_untouched (ps : List (ℕ × Option ℚ)) (k : ℕ) (d : Option ℚ)
    (h : ∀ q ∈ ps, q.1 ≠ k) :
    ∀ init, (foldlSet init ps).getD k d = init.getD k d := by
  induction ps with
  | nil => intro init; rfl
  | cons q t ih =>
    intro init
    have step : foldlSet init (q :: t) = foldlSet (init.set q.1 q.2) t := rfl
    rw [step, ih (fun r hr => h r (List.mem_cons_of_mem q hr)) (init.set q.1 q.2)]
    rw [List.getD_eq_getElem?_getD, List.getD_eq_getElem?_getD,
      List.getElem?_set_ne (h q (List.mem_cons_self q t))]

/-- If every written value is `c` and the position is written at least once,
the final value at that position is `c`. -/
theorem foldlSet_const (ps : List (ℕ × Option ℚ)) (k : ℕ) (c d : Option ℚ)
    (hc : ∀ q ∈ ps, q.2 = c) (hk : ∃ q ∈ ps, q.1 = k) :
    ∀ init, k < init.length → (foldlSet init ps).getD k d = c := by
  induction ps with
  | nil => simp at hk
  | cons q t ih =>
    intro init hlen
    have step : foldlSet init (q :: t) = foldlSet (init.set q.1 q.2) t := rfl
    rw [step]
    by_cases hkt : ∃ r ∈ t, r.1 = k
    · exact ih (fun r hr => hc r (List.mem_cons_of_mem q hr)) hkt (init.set q.1 q.2)
        (by rw [List.length_set]; exact hlen)
    · have hqk : q.1 = k := by
        rcases hk with ⟨r, hr, hrk⟩
        rcases List.mem_cons.mp hr with rfl | hrt
        · exact hrk
        · exact absurd ⟨r, hrt, hrk⟩ hkt
      push_neg at hkt
      rw [foldlSet_untouched t k d hkt (init.set q.1 q.2), hqk]
      rw [List.getD_eq_getElem?_getD, List.getElem?_set_self hlen]
      simp [hc q (List.mem_cons_self q t)]

/-- The value of the last write (to an in-range position) is present in the
final buffer. -/
theorem foldlSet_getLast (ps : List (ℕ × Option ℚ)) (k : ℕ) (v : Option ℚ)
    (h : ps.getLast? = some (k, v)) :
    ∀ init, k < init.length → v ∈ foldlSet init ps := by
  induction ps with
  | nil => simp at h
  | cons q t ih =>
    intro init hlen
    cases t with
    | nil =>
      simp only [List.getLast?_singleton, Option.some_inj] at h
      subst h
      show v ∈ init.set k v
      have hlen2 : k < (init.set k v).length := by
        rw [List.length_set]
        exact hlen
      have hval : (init.set k v)[k] = v := List.getElem_set_self hlen2
      have hmem := List.getElem_mem hlen2
      rwa [hval] at hmem
    | cons r rt =>
      have step : foldlSet init (q :: r :: rt) = foldlSet (init.set q.1 q.2) (r :: rt) := rfl
      rw [step]
      have h2 : (r :: rt).getLast? = some (k, v) := by
        rw [← h, List.getLast?_cons_cons]
      exact ih h2 (init.set q.1 q.2) (by rw [List.length_set]; exact hlen)


/-- The gathered weights along the descending argsort are the second
components of the sorted enumeration. -/
theorem gathered_eq (w : List ℚ) :
    (sortedIdx w).map (fun i => w.getD i 0) =
      (sortIdxDesc (enumIdx 0 w)).map Prod.snd := by
  have : (sortedIdx w).map (fun i => w.getD i 0) =
      (sortIdxDesc (enumIdx 0 w)).map (fun q => w.getD q.1 0) := by
    show ((sortIdxDesc (enumIdx 0 w)).map Prod.fst).map (fun i => w.getD i 0) =
      (sortIdxDesc (enumIdx 0 w)).map (fun q => w.getD q.1 0)
    rw [List.map_map]
    rfl
  rw [this]
  apply List.map_congr_left
  intro q hq
  have hqe : q ∈ enumIdx 0 w := (sortIdxDesc_perm (enumIdx 0 w)).mem_iff.mp hq
  have := (enumIdx_getD w 0 q hqe).2
  simpa using this

/-- The list of squared gathered weights is a permutation of the squared
weights. -/
theorem squares_perm (w : List ℚ) :
    (((sortedIdx w).map (fun i => w.getD i 0)).map (fun x => x * x)).Perm
      (w.map (fun x => x * x)) := by
  rw [gathered_eq]
  have h1 := ((sortIdxDesc_perm (enumIdx 0 w)).map Prod.snd).map (fun x => x * x)
  rwa [enumIdx_map_snd w 0] at h1

/-- Length bookkeeping: the descending argsort has the column's length. -/
theorem sortedIdx_length (w : List ℚ) : (sortedIdx w).length = w.length := by
  have := (sortedIdx_perm_range w).length_eq
  simpa using this

/-- Length bookkeeping: the cumulative energy has the column's length. -/
theorem cumEnergy_length (w : List ℚ) : (cumEnergy w).length = w.length := by
  simp [cumEnergy, cumsum, length_cumsumAux, sortedIdx_length]

/-- For a non-empty column the normalization divisor is the total energy,
the sum of all squared weights. -/
theorem totalEnergy_eq (w : List ℚ) (h : w ≠ []) :
    totalEnergy w = (w.map (fun x => x * x)).sum := by
  have hlen : w.length ≠ 0 := fun hc => h (List.eq_nil_of_length_eq_zero hc)
  have hsq : (((sortedIdx w).map (fun i => w.getD i 0)).map (fun x => x * x)) ≠ [] := by
    intro hc
    have := congrArg List.length hc
    simp only [List.length_map, sortedIdx_length, List.length_nil] at this
    exact hlen this
  simp only [totalEnergy, cumEnergy, cumsum]
  rw [cumsumAux_getLast? _ hsq 0]
  simp only [Option.getD_some, zero_add]
  exact (squares_perm w).sum_eq

/-- With non-negative weights, one of them non-zero, the total energy is
strictly positive. -/
theorem totalEnergy_pos (w : List ℚ) (hnn : ∀ x ∈ w, 0 ≤ x)
    (hnz : ∃ x ∈ w, x ≠ 0) : 0 < totalEnergy w := by
  obtain ⟨x, hx, hxne⟩ := hnz
  have hne : w ≠ [] := by
    intro hc
    subst hc
    simp at hx
  rw [totalEnergy_eq w hne]
  have hmem : x * x ∈ w.map (fun y => y * y) := List.mem_map.mpr ⟨x, hx, rfl⟩
  have hle : x * x ≤ (w.map (fun y => y * y)).sum :=
    List.single_le_sum (fun y hy => by
      obtain ⟨z, _, rfl⟩ := List.mem_map.mp hy
      exact mul_self_nonneg z) _ hmem
  have hpos : 0 < x * x := mul_self_pos.mpr hxne
  linarith


/-- C8: for a component column with non-negative weights (the data-model
invariant on `A`), at least one of them non-zero, the normalized cumulative
energy is the pointwise quotient by the total, is non-decreasing, starts
strictly above zero and ends exactly at `1`; hence every entry of the
scattered energy-rank surface is a real value at most `1` and the value `1`
is attained — the maximum entry is exactly `1`. -/
theorem cumEnergy_normalized (w : List ℚ)
    (hnn : ∀ x ∈ w, 0 ≤ x) (hnz : ∃ x ∈ w, x ≠ 0) :
    normCumEnergy w =
        ((cumEnergy w).map (fun x => x / totalEnergy w)).map some ∧
    List.Chain' (· ≤ ·) ((cumEnergy w).map (fun x => x / totalEnergy w)) ∧
    0 < ((cumEnergy w).map (fun x => x / totalEnergy w)).getD 0 0 ∧
    ((cumEnergy w).map (fun x => x / totalEnergy w)).getLast?.getD 0 = 1 ∧
    (∀ v ∈ componentSurface w, ∃ q, v = some q ∧ q ≤ 1) ∧
    some 1 ∈ componentSurface w := by
  have htot : 0 < totalEnergy w := totalEnergy_pos w hnn hnz
  have htne : totalEnergy w ≠ 0 := ne_of_gt htot
  have hwne : w ≠ [] := by
    obtain ⟨x, hx, _⟩ := hnz
    intro hc
    subst hc
    simp at hx
  have hwlen : w.length ≠ 0 := fun hc => hwne (List.eq_nil_of_length_eq_zero hc)
  set sq := ((sortedIdx w).map (fun i => w.getD i 0)).map (fun x => x * x)
    with hsqdef
  have hsqnn : ∀ x ∈ sq, 0 ≤ x := by
    intro y hy
    obtain ⟨z, _, rfl⟩ := List.mem_map.mp hy
    exact mul_self_nonneg z
  have hsqlen : sq.length = w.length := by
    rw [hsqdef]
    simp [sortedIdx_length]
  have hsqne : sq ≠ [] := by
    intro hc
    rw [hc] at hsqlen
    exact hwlen hsqlen.symm
  have hCE : cumEnergy w = cumsumAux 0 sq := rfl
  have hsum : sq.sum = totalEnergy w := by
    rw [totalEnergy_eq w hwne, hsqdef]
    exact (squares_perm w).sum_eq
  have hCElast : (cumEnergy w).getLast? = some (totalEnergy w) := by
    rw [hCE, cumsumAux_getLast? sq hsqne 0, zero_add, hsum]
  have part1 : normCumEnergy w =
      ((cumEnergy w).map (fun x => x / totalEnergy w)).map some := by
    rw [List.map_map]
    apply List.map_congr_left
    intro a _
    simp [qdiv, htne]
  have part2 : List.Chain' (· ≤ ·)
      ((cumEnergy w).map (fun x => x / totalEnergy w)) := by
    rw [List.chain'_map]
    have hch : List.Chain' (· ≤ ·) (cumEnergy w) := by
      rw [hCE]
      exact cumsumAux_chain' sq hsqnn 0
    apply hch.imp
    intro a b hab
    rw [div_eq_mul_inv, div_eq_mul_inv]
    exact mul_le_mul_of_nonneg_right hab (inv_nonneg.mpr htot.le)
  have part4 : ((cumEnergy w).map (fun x => x / totalEnergy w)).getLast?.getD 0 = 1 := by
    rw [List.getLast?_map, hCElast]
    simp [div_self htne]
  have part3 : 0 < ((cumEnergy w).map (fun x => x / totalEnergy w)).getD 0 0 := by
    cases hs : sortIdxDesc (enumIdx 0 w) with
    | nil =>
      exfalso
      have := sortedIdx_length w
      rw [sortedIdx, argsortDesc, hs] at this
      simp at this
      exact hwlen this.symm
    | cons q qt =>
      have hgath : (sortedIdx w).map (fun i => w.getD i 0) =
          q.2 :: qt.map Prod.snd := by
        rw [gathered_eq, hs]
        rfl
      have hsq2 : sq = (q.2 * q.2) :: (qt.map Prod.snd).map (fun x => x * x) := by
        rw [hsqdef, hgath]
        rfl
      have hq2 : 0 < q.2 := by
        obtain ⟨x, hx, hxne⟩ := hnz
        have hxpos : 0 < x := lt_of_le_of_ne (hnn x hx) (Ne.symm hxne)
        have hxw : x ∈ (enumIdx 0 w).map Prod.snd := by
          rw [enumIdx_map_snd w 0]
          exact hx
        obtain ⟨px, hpxe, hpx2⟩ := List.mem_map.mp hxw
        have hpxs : px ∈ q :: qt := by
          rw [← hs]
          exact (sortIdxDesc_perm (enumIdx 0 w)).mem_iff.mpr hpxe
        rcases List.mem_cons.mp hpxs with rfl | hpxqt
        · rw [hpx2]
          exact hxpos
        · have hsorted := sortIdxDesc_sorted (enumIdx 0 w)
          rw [hs, List.sorted_cons] at hsorted
          have := hsorted.1 px hpxqt
          rw [hpx2] at this
          linarith
      rw [hCE, hsq2]
      simp only [cumsumAux, zero_add, List.map_cons, List.getD_cons_zero]
      exact div_pos (mul_pos hq2 hq2) htot
  refine ⟨part1, part2, part3, part4, ?_, ?_⟩
  · intro v hv
    have hv2 := foldlSet_mem ((sortedIdx w).zip (normCumEnergy w))
      (List.replicate w.length (some 0)) v hv
    rcases hv2 with h1 | h1
    · refine ⟨0, List.eq_of_mem_replicate h1, by norm_num⟩
    · have hvals : ((sortedIdx w).zip (normCumEnergy w)).map Prod.snd =
          normCumEnergy w := by
        apply List.map_snd_zip
        rw [sortedIdx_length, part1]
        simp [cumEnergy_length]
      rw [hvals, part1] at h1
      obtain ⟨qv, hqv, rfl⟩ := List.mem_map.mp h1
      obtain ⟨c, hc, rfl⟩ := List.mem_map.mp hqv
      refine ⟨c / totalEnergy w, rfl, ?_⟩
      rw [div_le_one htot]
      have := cumsumAux_mem_le sq hsqnn 0 c (by rw [← hCE]; exact hc)
      rw [zero_add, hsum] at this
      exact this
  · have hvlen : (normCumEnergy w).length = w.length := by
      simp [normCumEnergy, cumEnergy_length]
    have hine : sortedIdx w ≠ [] := by
      intro hc
      have := sortedIdx_length w
      rw [hc] at this
      simp at this
      exact hwlen this.symm
    have hvne : normCumEnergy w ≠ [] := by
      intro hc
      rw [hc] at hvlen
      exact hwlen hvlen.symm
    rcases List.eq_nil_or_concat (sortedIdx w) with hL | ⟨L, k, hL⟩
    · exact absurd hL hine
    rcases List.eq_nil_or_concat (normCumEnergy w) with hM | ⟨M, vv, hM⟩
    · exact absurd hM hvne
    have hLM : L.length = M.length := by
      have h1 : (sortedIdx w).length = w.length := sortedIdx_length w
      rw [hL] at h1
      have h2 := hvlen
      rw [hM] at h2
      simp [List.concat_eq_append] at h1 h2
      omega
    have hzip : (sortedIdx w).zip (normCumEnergy w) =
        L.zip M ++ [(k, vv)] := by
      rw [hL, hM, List.concat_eq_append, List.concat_eq_append,
        List.zip_append hLM]
      rfl
    have hlast : ((sortedIdx w).zip (normCumEnergy w)).getLast? =
        some (k, vv) := by
      rw [hzip, List.getLast?_concat]
    have hkmem : k ∈ sortedIdx w := by
      rw [hL, List.concat_eq_append]
      exact List.mem_append_right L (List.mem_singleton_self k)
    have hklt : k < w.length := by
      have := (sortedIdx_perm_range w).mem_iff.mp hkmem
      exact List.mem_range.mp this
    have hvv : vv = some 1 := by
      have h1 : (normCumEnergy w).getLast? = some vv := by
        rw [hM, List.concat_eq_append, List.getLast?_concat]
      rw [part1, List.getLast?_map] at h1
      cases hQ : ((cumEnergy w).map (fun x => x / totalEnergy w)).getLast? with
      | none =>
        rw [hQ] at h1
        simp at h1
      | some y =>
        rw [hQ] at h1
        simp only [Option.map_some, Option.map_some', Option.some_inj] at h1
        have hy : y = 1 := by
          have h4 := part4
          rw [hQ] at h4
          simpa using h4
        rw [← h1, hy]
    have := foldlSet_getLast ((sortedIdx w).zip (normCumEnergy w)) k vv hlast
      (List.replicate w.length (some 0))
      (by rw [List.length_replicate]; exact hklt)
    rw [hvv] at this
    exact this

/-- C8 witness: the column `[0, 1]`. -/
theorem cumEnergy_normalized_witness :
    (∀ x ∈ ([0, 1] : List ℚ), 0 ≤ x) ∧ (∃ x ∈ ([0, 1] : List ℚ), x ≠ 0) ∧
    (normCumEnergy [0, 1] =
        ((cumEnergy [0, 1]).map (fun x => x / totalEnergy [0, 1])).map some ∧
    List.Chain' (· ≤ ·)
      ((cumEnergy [0, 1]).map (fun x => x / totalEnergy [0, 1])) ∧
    0 < ((cumEnergy [0, 1]).map (fun x => x / totalEnergy [0, 1])).getD 0 0 ∧
    ((cumEnergy [0, 1]).map (fun x => x / totalEnergy [0, 1])).getLast?.getD 0 = 1 ∧
    (∀ v ∈ componentSurface [0, 1], ∃ q, v = some q ∧ q ≤ 1) ∧
    some 1 ∈ componentSurface [0, 1]) :=
  ⟨by decide, by decide,
    cumEnergy_normalized [0, 1] (by decide) (by decide)⟩


/-- Column-major pixel index bound: pixel `(i, j)` of a `d1 x d2` frame has
flat index below `d1*d2`. -/
theorem pixel_index_lt (d1 d2 i j : ℕ) (hi : i < d1) (hj : j < d2) :
    i + d1 * j < d1 * d2 := by
  calc i + d1 * j < d1 + d1 * j := by omega
  _ = d1 * (j + 1) := by ring
  _ ≤ d1 * d2 := Nat.mul_le_mul_left d1 hj

/-- Every edge of the grid joins two in-bounds nodes. -/
theorem edgeList_bounds (d1 d2 : ℕ) :
    ∀ e ∈ edgeList d1 d2,
      e.1.1 < d1 ∧ e.1.2 < d2 ∧ e.2.1 < d1 ∧ e.2.2 < d2 := by
  intro e he
  simp only [edgeList, List.mem_append, List.mem_flatMap, List.mem_map,
    List.mem_range] at he
  rcases he with ⟨i, hi, j, hj, rfl⟩ | ⟨i, hi, j, hj, rfl⟩ <;>
    refine ⟨?_, ?_, ?_, ?_⟩ <;> dsimp only <;> omega

/-- For the all-zero column every in-range entry of the energy-rank surface
is the NaN marker: the zero total energy turns every normalized quotient
into `0/0`. -/
theorem componentSurface_zero (d k : ℕ) (hk : k < d) :
    (componentSurface (List.replicate d 0)).getD k (some 0) = none := by
  have hwlen : (List.replicate d (0 : ℚ)).length = d := List.length_replicate d 0
  have htot : totalEnergy (List.replicate d 0) = 0 := by
    cases d with
    | zero => rfl
    | succ n =>
      rw [totalEnergy_eq _ (by simp)]
      have hmap : (List.replicate (n + 1) (0 : ℚ)).map (fun x => x * x) =
          List.replicate (n + 1) (0 : ℚ) := by
        simp [List.map_replicate]
      rw [hmap]
      simp
  have hvals : ∀ v ∈ normCumEnergy (List.replicate d 0), v = none := by
    intro v hv
    simp only [normCumEnergy] at hv
    obtain ⟨c, _, rfl⟩ := List.mem_map.mp hv
    simp [qdiv, htot]
  have hidxlen : (sortedIdx (List.replicate d (0 : ℚ))).length = d := by
    rw [sortedIdx_length, hwlen]
  have hvlen : (normCumEnergy (List.replicate d (0 : ℚ))).length = d := by
    simp [normCumEnergy, cumEnergy_length, hwlen]
  have hkmem : k ∈ sortedIdx (List.replicate d (0 : ℚ)) := by
    apply (sortedIdx_perm_range _).mem_iff.mpr
    rw [hwlen]
    exact List.mem_range.mpr hk
  have hzipfst : ((sortedIdx (List.replicate d (0 : ℚ))).zip
      (normCumEnergy (List.replicate d 0))).map Prod.fst =
      sortedIdx (List.replicate d (0 : ℚ)) :=
    List.map_fst_zip _ _ (by rw [hidxlen, hvlen])
  have hex : ∃ q ∈ (sortedIdx (List.replicate d (0 : ℚ))).zip
      (normCumEnergy (List.replicate d 0)), q.1 = k := by
    rw [← hzipfst] at hkmem
    obtain ⟨q, hq, hq2⟩ := List.mem_map.mp hkmem
    exact ⟨q, hq, hq2⟩
  have hcnone : ∀ q ∈ (sortedIdx (List.replicate d (0 : ℚ))).zip
      (normCumEnergy (List.replicate d 0)), q.2 = none := by
    intro q hq
    exact hvals q.2 (List.of_mem_zip hq).2
  exact foldlSet_const _ k none (some 0) hcnone hex _
    (by rw [List.length_replicate, hwlen]; exact hk)

/-- For the all-zero column the per-component loop body yields the
sentinel: the all-NaN surface admits no contour crossing. -/
theorem componentPolygon_zero (d1 d2 : ℕ) (thr : ℚ) :
    componentPolygon (List.replicate (d1 * d2) 0) d1 d2 thr = sentinel := by
  have hcross : edgeCrossings
      (fun i j => (componentSurface (List.replicate (d1 * d2) 0)).getD
        (i + d1 * j) (some 0)) d1 d2 thr = [] := by
    simp only [edgeCrossings]
    rw [List.filterMap_eq_nil_iff]
    intro e he
    obtain ⟨h1, h2, h3, h4⟩ := edgeList_bounds d1 d2 e he
    have hb1 := pixel_index_lt d1 d2 e.1.1 e.1.2 h1 h2
    have hb2 := pixel_index_lt d1 d2 e.2.1 e.2.2 h3 h4
    rw [componentSurface_zero _ _ hb1, componentSurface_zero _ _ hb2]
  simp only [componentPolygon, traceModel, hcross]
  rfl

/-- C4: for an all-zero weight column of `A`, `contour` does not abort on
the zero-divided normalization (the quotients become NaN) and returns the
fixed 3-vertex zero-area sentinel polygon for that component. -/
theorem contour_zero_column (A : List (List ℚ)) (d1 d2 : ℕ) (thr : ℚ) (i : ℕ)
    (h1 : i < A.length) (h2 : A.getD i [] = List.replicate (d1 * d2) 0) :
    (contour A d1 d2 thr).getD i [] = sentinel := by
  simp only [contour, List.getD_eq_getElem?_getD, List.getElem?_map,
    List.getElem?_eq_getElem h1, Option.map_some', Option.getD_some]
  rw [List.getD_eq_getElem?_getD, List.getElem?_eq_getElem h1] at h2
  simp only [Option.getD_some] at h2
  rw [h2]
  exact componentPolygon_zero d1 d2 thr

/-- C4 witness: a single all-zero column on a `1 x 1` grid. -/
theorem contour_zero_column_witness :
    (0 : ℕ) < ([[(0 : ℚ)]] : List (List ℚ)).length ∧
    ([[(0 : ℚ)]] : List (List ℚ)).getD 0 [] = List.replicate (1 * 1) 0 ∧
    (contour [[(0 : ℚ)]] 1 1 (9/10)).getD 0 [] = sentinel :=
  ⟨by decide, by decide,
    contour_zero_column [[(0 : ℚ)]] 1 1 (9/10) 0 (by decide) (by decide)⟩

/-- C9: `contour` returns one polygon per component column, in column
order; the polygon of component `i` is the first traced contour line at
level `thr` if one exists and the sentinel otherwise. -/
theorem contour_shape (A : List (List ℚ)) (d1 d2 : ℕ) (thr : ℚ)
    (hthr0 : 0 < thr) (hthr1 : thr ≤ 1) :
    (contour A d1 d2 thr).length = A.length ∧
    ∀ i, i < A.length →
      (contour A d1 d2 thr).getD i [] =
        match traceModel (fun r c =>
            (componentSurface (A.getD i [])).getD (r + d1 * c) (some 0))
          d1 d2 thr with
        | [] => sentinel
        | c :: _ => c := by
  constructor
  · simp [contour]
  · intro i hi
    have hmap : (contour A d1 d2 thr).getD i [] =
        componentPolygon (A.getD i []) d1 d2 thr := by
      simp only [contour, List.getD_eq_getElem?_getD, List.getElem?_map,
        List.getElem?_eq_getElem hi, Option.map_some', Option.getD_some]
    rw [hmap]
    rfl

/-- C9 witness: one two-pixel column on a `2 x 1` grid at threshold `1`,
the closed end of the documented range. -/
theorem contour_shape_witness :
    (0 : ℚ) < 1 ∧ (1 : ℚ) ≤ 1 ∧
    ((contour [[1, 0]] 2 1 1).length = ([[1, 0]] : List (List ℚ)).length ∧
    ∀ i, i < ([[1, 0]] : List (List ℚ)).length →
      (contour [[1, 0]] 2 1 1).getD i [] =
        match traceModel (fun r c =>
            (componentSurface (([[1, 0]] : List (List ℚ)).getD i [])).getD
              (r + 2 * c) (some 0)) 2 1 1 with
        | [] => sentinel
        | c :: _ => c) :=
  ⟨by decide, by decide, contour_shape [[1, 0]] 2 1 1 (by decide) (by decide)⟩

end Cnmf
